import Mathlib

/-!
Verification development for the Lottus single-page application.

The program keeps an ordered list of verses (text plus trailing pause in
milliseconds), plays them back as synthesized speech, and serializes the
document (title plus verses) into the page URL.  The definitions below are a
shallow embedding of the relevant parts of `src/src/index.tsx` and of the
revisions in `src/unnamed/part_001` and `src/unnamed/part_002`.

Numeric pause values are modelled as natural numbers of milliseconds,
following the data model of the specification (section 3: integer
milliseconds at least 0).  Speech rate and pitch are modelled as exact
rationals, since the source only ever assigns the literal 0.6 to them.
-/

/-! ### Data model -/

/-- A verse as in the `Verse` type of the source: a text and a trailing
pause in milliseconds. -/
structure Verse where
  text : String
  pause : Nat
deriving Repr, DecidableEq

/-- A JavaScript object holding at most the fields of a `Verse`: each field
may be absent.  This is the value space of the reducer's `verse` payload
(the source types it as an object with optional `text`/`pause` fields) and
of the objects produced by spreading such payloads. -/
structure VerseObj where
  text : Option String := none
  pause : Option Nat := none
deriving Repr, DecidableEq

/-! ### The verse-store reducer (`updateVerses` in `src/src/index.tsx`,
lines 30-54; identical in `part_001` and `part_002`)

The reducer receives either `{ verses }` (replace the whole list), or
`{ index, verse: null }` (delete), or `{ index, verse }` (update/insert).

The delete branch of the source is

  `return [...verses.splice(0, index), ...verses.splice(index + 1)]`

`Array.prototype.splice` mutates its receiver and returns the removed
elements: `verses.splice(0, index)` removes and returns the first `index`
elements, leaving `verses` equal to the original list with those elements
dropped; the second call `verses.splice(index + 1)` then removes and
returns everything from position `index + 1` of that already-shortened
array, i.e. the elements of the original list from position
`2 * index + 1` on.  The translation below reproduces exactly that.

The update branch is

  `return [...verses.slice(0, index),
           { ...(verses[index] ?? {}), ...verse },
           ...verses.slice(index + 1)]`

where the object spread keeps a field of `verses[index]` unless the patch
carries that field. -/

/-- An action dispatched to the reducer. -/
inductive VerseAction where
  /-- `{ verses }`: replace the whole list (used by `clear()` and by the
  URL-decode effect). -/
  | replaceAll (vs : List VerseObj)
  /-- `{ index, verse: null }`: the delete branch. -/
  | delete (index : Nat)
  /-- `{ index, verse }` with a non-null patch: the update branch. -/
  | update (index : Nat) (patch : VerseObj)
deriving Repr, DecidableEq

/-- The JavaScript object spread `{ ...(old ?? {}), ...patch }`: a field of
the result comes from `patch` when `patch` carries it, otherwise from `old`
when `old` exists and carries it, and is absent otherwise. -/
def mergeObj (old : Option VerseObj) (patch : VerseObj) : VerseObj where
  text := patch.text <|> old.bind VerseObj.text
  pause := patch.pause <|> old.bind VerseObj.pause

/-- The reducer of `useReducer` in `src/src/index.tsx`, lines 30-54. -/
def updateVerses (verses : List VerseObj) : VerseAction → List VerseObj
  | .replaceAll vs => vs
  | .delete index =>
      verses.take index ++ verses.drop (2 * index + 1)
  | .update index patch =>
      verses.take index ++ [mergeObj verses[index]? patch] ++ verses.drop (index + 1)

/-- A well-formed verse object: both fields present (this is what the UI
always produces for in-range updates and for `Add Verse`). -/
def VerseObj.ofVerse (v : Verse) : VerseObj :=
  { text := some v.text, pause := some v.pause }

/-! ### Utterance construction -/

/-- A speech-synthesis utterance as configured by the source: the spoken
text, plus the fixed rate and pitch. -/
structure Utterance where
  text : String
  rate : ℚ
  pitch : ℚ
deriving DecidableEq

/-- An utterance paired with the pause to wait after it ends
(`UtteranceInfo` in the source). -/
structure UtteranceInfo where
  utterance : Utterance
  pause : Nat
deriving DecidableEq

/-- `makeUtterance` of `src/src/index.tsx`, lines 99-110:

  `utterance.text = text || ' '` (the empty string is the only falsy
  string, so an empty verse is spoken as a single space),
  `utterance.rate = 0.6`, `utterance.pitch = 0.6`,
  and the verse's pause is carried along unchanged. -/
def makeUtterance (verse : Verse) : UtteranceInfo where
  utterance :=
    { text := if verse.text = "" then " " else verse.text
      rate := 6/10
      pitch := 6/10 }
  pause := verse.pause

/-- `text.split(',')` of JavaScript on a character list: splits at every
comma; the result always has one part per comma-separated segment, and
splitting the empty string yields one empty part. -/
def splitCommaAux : List Char → List Char → List (List Char)
  | [], acc => [acc.reverse]
  | c :: rest, acc =>
      if c = ',' then acc.reverse :: splitCommaAux rest []
      else splitCommaAux rest (c :: acc)

/-- `text.split(',')` on strings. -/
def splitComma (s : String) : List String :=
  (splitCommaAux s.data []).map List.asString

/-- `makeUtterances` of `src/unnamed/part_001`, lines 108-122: the verse
text is split at commas; each non-empty part is spoken as `...` followed by
the part, an empty part as a single space; every part gets rate 0.6 and
pitch 0.6; the last part carries the verse's own pause and every earlier
part carries the fixed 300 ms segment pause.  (`part_002` differs only in
not prefixing `...`.) -/
def makeUtterances (verse : Verse) : List UtteranceInfo :=
  let parts := splitComma verse.text
  parts.enum.map fun ip =>
    { utterance :=
        { text := if ip.2 = "" then " " else "..." ++ ip.2
          rate := 6/10
          pitch := 6/10 }
      pause := if ip.1 = parts.length - 1 then verse.pause else 300 }

/-! ### The playback run of `play()` in `src/src/index.tsx`, lines 112-139

`play()` first builds one utterance job per verse from the current store
snapshot (`verses.map(makeUtterance)`), then chains
`last.then(() => speak(index, utteranceInfo))` over the jobs starting from
`Promise.resolve()`.  `speak(index, info)` (with `isPlaying` true) calls
`setCurrentVerse(index)` and hands the utterance to the speech engine; when
the utterance fires its `end` event the handler schedules the promise's
`resolve` with `setTimeout(resolve, info.pause)` and calls
`setCurrentVerse(-1)`; the timeout firing runs the next job's `speak`.

The trace below is the timed event sequence of one playback run that is
started by the Play button (which sets `isPlaying` to true) and is never
interrupted, under the assumption that the utterance of verse `i` takes
`durs[i]` milliseconds of speech.  Each constructor corresponds to one
observable action of the source. -/

/-- An observable playback event. -/
inductive PlayEvent where
  /-- `setCurrentVerse(v)` (the source uses -1 for "none"). -/
  | setCurrent (v : Int)
  /-- `speechSynthesis.speak` of the utterance of verse `i`. -/
  | speakStart (i : Nat)
  /-- the `end` event of the utterance of verse `i`. -/
  | speakEnd (i : Nat)
deriving Repr, DecidableEq

/-- An event with the time (ms from the start of the run) at which it
occurs. -/
abbrev TimedEvent := Nat × PlayEvent

/-- The events of `speak(i, info)` when the utterance takes `d` ms and the
call happens at time `t`: publish the index and start speaking at `t`; at
`t + d` the utterance ends, the pause timer is scheduled and the index is
cleared. -/
def speakEvents (i : Nat) (d : Nat) (t : Nat) : List TimedEvent :=
  [(t, .setCurrent i), (t, .speakStart i), (t + d, .speakEnd i), (t + d, .setCurrent (-1))]

/-- The promise chain of `play()` over the remaining jobs, where a job is a
pair of the utterance's speech duration and its pause: job `i` runs at time
`t`, and its `setTimeout(resolve, pause)` starts job `i + 1` at
`t + duration + pause`. -/
def playAux : List (Nat × Nat) → Nat → Nat → List TimedEvent
  | [], _, _ => []
  | (d, p) :: rest, i, t => speakEvents i d t ++ playAux rest (i + 1) (t + d + p)

/-- The jobs built by `play()`: `verses.map(makeUtterance)`. -/
def playJobs (verses : List Verse) : List UtteranceInfo :=
  verses.map makeUtterance

/-- The full timed trace of an uninterrupted `play()` run over `verses`,
when the utterance of verse `i` takes `durs[i]` ms. -/
def playTrace (verses : List Verse) (durs : List Nat) : List TimedEvent :=
  playAux (durs.zip ((playJobs verses).map UtteranceInfo.pause)) 0 0

/-- The value of `currentVerse` after an event: `setCurrentVerse` writes
it, other events leave it alone. -/
def applyEvent (s : Int) : PlayEvent → Int
  | .setCurrent v => v
  | _ => s

/-- The value of `currentVerse` at time `t` along a trace: start from the
initial value -1 (`useState(-1)`) and apply every event that has happened
by time `t`, in trace order. -/
def stateAt (tr : List TimedEvent) (t : Nat) : Int :=
  (tr.filter fun e => decide (e.1 ≤ t)).foldl (fun s e => applyEvent s e.2) (-1)

/-- The start time of job `k` in a job list: the total speech and pause
time of all earlier jobs. -/
def jobStart (jobs : List (Nat × Nat)) (k : Nat) : Nat :=
  ((jobs.take k).map fun j => j.1 + j.2).sum

/-- The job list of a run (speech duration of verse `i` paired with the
pause carried by its utterance job). -/
def runJobs (verses : List Verse) (durs : List Nat) : List (Nat × Nat) :=
  durs.zip ((playJobs verses).map UtteranceInfo.pause)

/-- The utterance of job `k` is in flight at time `t`: the run has a job
`k`, it has started, and its `end` event has not yet fired. -/
def inFlight (verses : List Verse) (durs : List Nat) (k t : Nat) : Prop :=
  k < (runJobs verses durs).length ∧
    jobStart (runJobs verses durs) k ≤ t ∧
    t < jobStart (runJobs verses durs) k + ((runJobs verses durs).getD k (0, 0)).1

instance (verses : List Verse) (durs : List Nat) (k t : Nat) :
    Decidable (inFlight verses durs k t) := by
  unfold inFlight
  infer_instance

/-! ### The sequencer under user interaction

To settle the cancellation and re-entrancy claims the playback code is
modelled as a deterministic event machine.  A *run* is one promise chain
started by `play()` (or left over from it); its jobs are pairs of the verse
index and the pause carried by that verse's utterance job.  The machine
covers the three revisions of the source through a small selection record:

* `src/src/index.tsx`: the Play button runs `isPlaying.current = true;
  play()` with no guard; `speak` rejects with "Not playing" when
  `isPlaying` is false; the Stop button runs `isPlaying.current = false;
  clearTimeout(currentTimeout.current)` and nothing else.
* `part_001`: Play calls `play()` (which does `setIsPlaying(true)`) with no
  guard; `speak` has no `isPlaying` check; `stop()` additionally calls
  `speechSynthesis.cancel()` and `setCurrentVerse(-1)`.
* `part_002`: as `part_001`, but the Play button carries
  `disabled={isPlaying}`, so a click while playing has no effect.

The speech engine is a queue of utterances, one entry per `speak` call
(for `part_001`/`part_002`, whose `speak` chains per-segment utterances
inside one verse, an entry stands for the verse's whole segment chain; the
claims settled on this machine do not depend on that granularity).
`speechSynthesis.cancel()` is modelled as discarding the queue, with no
completion events for discarded utterances.  Timer identifiers are handed
out freshly by `setTimeout`; `clearTimeout` removes the stored identifier
from the live set.  Each event of `MEvent` is one callback of the event
loop or one user action. -/

/-- The phase of one promise chain (run). -/
inductive RunPhase where
  /-- the chain was created by `play()` and its first `speak` is still a
  pending microtask. -/
  | starting (jobs : List (Nat × Nat))
  /-- `speak` for job `cur` ran: its utterance was handed to the engine and
  the chain waits for the `end` event. -/
  | speaking (cur : Nat × Nat) (rest : List (Nat × Nat))
  /-- the `end` handler ran: timer `tid` was scheduled with the job's pause
  and the chain waits for it. -/
  | pausing (tid : Nat) (rest : List (Nat × Nat))
  /-- `speak` rejected with "Not playing"; the chain's catch/finally ran. -/
  | rejected
  /-- the chain completed. -/
  | finished
deriving Repr, DecidableEq

/-- The mutable state of the component that playback touches. -/
structure Machine where
  /-- `isPlaying` (a ref in `src/src/index.tsx`, state in the revisions). -/
  isPlaying : Bool
  /-- `currentVerse` (-1 for none). -/
  currentVerse : Int
  /-- `currentTimeout.current`: the identifier stored by the last
  `setTimeout` (-1 initially). -/
  currentTimeout : Int
  /-- next fresh timer identifier. -/
  nextTid : Nat
  /-- identifiers of timers that are set and neither fired nor cleared. -/
  liveTimers : List Nat
  /-- the speech engine queue: (run identifier, verse index) per utterance,
  head being spoken first. -/
  engine : List (Nat × Nat)
  /-- all runs ever started, indexed by run identifier. -/
  runs : List RunPhase
deriving Repr, DecidableEq

/-- The machine before any interaction. -/
def initMachine : Machine where
  isPlaying := false
  currentVerse := -1
  currentTimeout := -1
  nextTid := 0
  liveTimers := []
  engine := []
  runs := []

/-- Which revision of the source the machine executes. -/
structure Rev where
  /-- Play button has `disabled={isPlaying}` (`part_002` only). -/
  guardPlay : Bool
  /-- `speak` rejects when `isPlaying` is false (`src/src/index.tsx` only). -/
  speakGuard : Bool
  /-- `stop()` also calls `speechSynthesis.cancel()` and
  `setCurrentVerse(-1)` (`part_001` and `part_002`). -/
  stopCancels : Bool
deriving Repr, DecidableEq

/-- `src/src/index.tsx`. -/
def revMain : Rev := ⟨false, true, false⟩

/-- `src/unnamed/part_001`. -/
def revPartOne : Rev := ⟨false, false, true⟩

/-- `src/unnamed/part_002`. -/
def revPartTwo : Rev := ⟨true, false, true⟩

/-- One callback of the event loop or one user action. -/
inductive MEvent where
  /-- the Play button: make the run whose jobs are the given
  (verse index, pause) pairs. -/
  | clickPlay (jobs : List (Nat × Nat))
  /-- the scheduler executes run `r`'s pending first `speak` microtask. -/
  | microStep (r : Nat)
  /-- the head utterance of the engine finishes naturally and fires its
  `end` event. -/
  | engineEnd
  /-- timer `tid` fires (a no-op unless `tid` is live). -/
  | timerFire (tid : Nat)
  /-- the Stop button. -/
  | clickStop
deriving Repr, DecidableEq

/-- Execute `speak` of job `cur` for run `r`: with the revision's guard and
`isPlaying` false the promise rejects and the chain's finally runs;
otherwise the verse index is published and the utterance joins the engine
queue. -/
def doSpeak (rev : Rev) (s : Machine) (r : Nat) (cur : Nat × Nat)
    (rest : List (Nat × Nat)) : Machine :=
  if rev.speakGuard && !s.isPlaying then
    { s with runs := s.runs.set r .rejected, isPlaying := false }
  else
    { s with currentVerse := Int.ofNat cur.1
             engine := s.engine ++ [(r, cur.1)]
             runs := s.runs.set r (.speaking cur rest) }

/-- One step of the machine. -/
def step (rev : Rev) (s : Machine) : MEvent → Machine
  | .clickPlay jobs =>
      if rev.guardPlay && s.isPlaying then s
      else { s with isPlaying := true, runs := s.runs ++ [.starting jobs] }
  | .microStep r =>
      match s.runs[r]? with
      | some (.starting []) =>
          { s with runs := s.runs.set r .finished, isPlaying := false }
      | some (.starting (j :: rest)) => doSpeak rev s r j rest
      | _ => s
  | .engineEnd =>
      match s.engine with
      | [] => s
      | (r, _) :: q =>
          match s.runs[r]? with
          | some (.speaking _cur rest) =>
              { s with engine := q
                       currentVerse := -1
                       currentTimeout := Int.ofNat s.nextTid
                       liveTimers := s.liveTimers ++ [s.nextTid]
                       nextTid := s.nextTid + 1
                       runs := s.runs.set r (.pausing s.nextTid rest) }
          | _ => { s with engine := q }
  | .timerFire tid =>
      if tid ∈ s.liveTimers then
        let s' := { s with liveTimers := s.liveTimers.filter fun t => !(t == tid) }
        match s.runs.findIdx? fun ph =>
            match ph with
            | .pausing t _ => t == tid
            | _ => false with
        | some r =>
            match s.runs[r]? with
            | some (.pausing _ []) =>
                { s' with runs := s'.runs.set r .finished, isPlaying := false }
            | some (.pausing _ (j :: rest)) => doSpeak rev s' r j rest
            | _ => s'
        | none => s'
      else s
  | .clickStop =>
      let base :=
        { s with isPlaying := false
                 liveTimers := s.liveTimers.filter fun t => !(Int.ofNat t == s.currentTimeout) }
      if rev.stopCancels then { base with engine := [], currentVerse := -1 }
      else base

/-- Run a sequence of events. -/
def steps (rev : Rev) (s : Machine) (evs : List MEvent) : Machine :=
  evs.foldl (step rev) s

/-- The timer identifier a run is waiting on, if any. -/
def RunPhase.timerOf : RunPhase → Option Nat
  | .pausing tid _ => some tid
  | _ => none

/-- Timer identifiers are consistent: every live timer and every timer a
run waits on is below the fresh counter.  This holds in every reachable
state and is what makes cleared timers stay dead. -/
def timersWF (s : Machine) : Bool :=
  s.liveTimers.all (fun t => t < s.nextTid) &&
    s.runs.all fun ph => (ph.timerOf.map fun t => decide (t < s.nextTid)).getD true

/-! ### The URL codec

The effects at `src/src/index.tsx` lines 69-88 serialize the document with
`jsonURL('lzw').compress({ verses, title })` into the page URL and read it
back with `jsonURL('lzw').decompress(window.location.pathname.slice(1))`.
The codec itself is the external `json-url` library, which is not part of
this repository; sections 4.2 and 6 of the specification constrain it: the
token is "an external codec's compressed representation of a JSON object
`{ title: string, verses: [{text, pause}] }`", `encode` is a pure function
of the document, and `decode` of a token produced by `encode` returns an
equivalent document.  The codec is therefore modelled here as a concrete
serializer of that JSON object together with its parser; the library's LZW
compression stage is modelled as the identity transform on the serialized
text, since the specification constrains it only through the round-trip
law.  String escaping covers the two JSON-significant characters (quote
and backslash), which suffices for the serialization to be injective on
all documents. -/

/-- The document: the unit serialized to the URL. -/
structure Doc where
  title : String
  verses : List Verse
deriving Repr, DecidableEq

/-- An opening curly brace character. -/
def lbrace : Char := '\x7b'

/-- A closing curly brace character. -/
def rbrace : Char := '\x7d'

/-- The serialized form of `{"text":`. -/
def litTextKey : List Char := [lbrace, '"', 't', 'e', 'x', 't', '"', ':']

/-- The serialized form of `,"pause":`. -/
def litPauseKey : List Char := [',', '"', 'p', 'a', 'u', 's', 'e', '"', ':']

/-- The serialized form of `{"title":`. -/
def litTitleKey : List Char := [lbrace, '"', 't', 'i', 't', 'l', 'e', '"', ':']

/-- The serialized form of `,"verses":[`. -/
def litVersesKey : List Char := [',', '"', 'v', 'e', 'r', 's', 'e', 's', '"', ':', '[']

/-- Escape one character of a JSON string: quote and backslash get a
backslash prefix, everything else stands for itself. -/
def escChar (c : Char) : List Char :=
  if c = '"' ∨ c = '\\' then ['\\', c] else [c]

/-- Escape a JSON string body. -/
def escStr (s : List Char) : List Char :=
  s.flatMap escChar

/-- Serialize a JSON string: quote, escaped body, quote. -/
def printStr (s : List Char) : List Char :=
  '"' :: (escStr s ++ ['"'])

/-- The character of a decimal digit. -/
def digitChar (d : Nat) : Char := Char.ofNat (48 + d)

/-- Serialize a natural number in decimal. -/
def printNat (n : Nat) : List Char :=
  if n = 0 then ['0'] else (Nat.digits 10 n).reverse.map digitChar

/-- Serialize one verse as `{"text":<string>,"pause":<number>}`. -/
def printVerse (v : Verse) : List Char :=
  litTextKey ++ printStr v.text.data ++ litPauseKey ++ printNat v.pause ++ [rbrace]

/-- Serialize the elements after the first: `,<verse>` each. -/
def printVersesSep (vs : List Verse) : List Char :=
  vs.flatMap fun v => ',' :: printVerse v

/-- Serialize a verse list body (without the surrounding brackets). -/
def printVerses : List Verse → List Char
  | [] => []
  | v :: rest => printVerse v ++ printVersesSep rest

/-- Serialize a document as
`{"title":<string>,"verses":[<verse>,...]}`. -/
def printDoc (d : Doc) : List Char :=
  litTitleKey ++ printStr d.title.data ++ litVersesKey ++ printVerses d.verses ++ [']', rbrace]

/-- Expect a literal prefix and return the remainder. -/
def expects : List Char → List Char → Option (List Char)
  | [], s => some s
  | _ :: _, [] => none
  | l :: ls, c :: cs => if c = l then expects ls cs else none

/-- Parse a JSON string body up to the closing quote, undoing escapes. -/
def parseStrBody : List Char → Option (List Char × List Char)
  | [] => none
  | c :: rest =>
      if c = '\\' then
        match rest with
        | [] => none
        | c2 :: rest2 => (parseStrBody rest2).map fun p => (c2 :: p.1, p.2)
      else if c = '"' then some ([], rest)
      else (parseStrBody rest).map fun p => (c :: p.1, p.2)

/-- Parse a JSON string (opening quote, body, closing quote). -/
def parseStr : List Char → Option (List Char × List Char)
  | [] => none
  | c :: rest => if c = '"' then parseStrBody rest else none

/-- Parse a decimal natural number (the maximal digit run). -/
def parseNat (s : List Char) : Option (Nat × List Char) :=
  let ds := s.takeWhile Char.isDigit
  if ds = [] then none
  else some (ds.foldl (fun a c => a * 10 + (c.toNat - 48)) 0, s.dropWhile Char.isDigit)

/-- Parse one verse. -/
def parseVerse (s : List Char) : Option (Verse × List Char) := do
  let s1 ← expects litTextKey s
  let t ← parseStr s1
  let s2 ← expects litPauseKey t.2
  let p ← parseNat s2
  let s3 ← expects [rbrace] p.2
  pure (⟨t.1.asString, p.1⟩, s3)

/-- Parse the verses after the first one: a `,`-prefixed verse each, up to
the closing `]`.  The fuel argument only bounds the recursion; any fuel
larger than the number of verses suffices. -/
def parseVersesTail : Nat → List Char → Option (List Verse × List Char)
  | 0, _ => none
  | _ + 1, [] => none
  | fuel + 1, c :: rest =>
      if c = ']' then some ([], rest)
      else if c = ',' then do
        let v ← parseVerse rest
        let vs ← parseVersesTail fuel v.2
        pure (v.1 :: vs.1, vs.2)
      else none

/-- Parse a verse list after the opening `[`, consuming the closing `]`. -/
def parseVerses (fuel : Nat) (s : List Char) : Option (List Verse × List Char) :=
  match s with
  | [] => none
  | c :: rest =>
      if c = ']' then some ([], rest)
      else do
        let v ← parseVerse (c :: rest)
        let vs ← parseVersesTail fuel v.2
        pure (v.1 :: vs.1, vs.2)

/-- Parse a whole document, requiring the input to be consumed entirely. -/
def parseDoc (s : List Char) : Option Doc := do
  let s1 ← expects litTitleKey s
  let t ← parseStr s1
  let s2 ← expects litVersesKey t.2
  let vs ← parseVerses (s2.length + 1) s2
  let s3 ← expects [rbrace] vs.2
  match s3 with
  | [] => some ⟨t.1.asString, vs.1⟩
  | _ => none

/-- Modelled from the spec: `encode(document) -> compressedToken` of the
external `json-url` codec (section 4.2), missing from this repository.  The
document is serialized as the JSON object `{ title, verses }` of section 6;
the external library's LZW compression stage is modelled as the identity
transform on the serialized text. -/
def encode (d : Doc) : String :=
  (printDoc d).asString

/-- Modelled from the spec: `decode(compressedToken) -> document |
DecodeError` of the external `json-url` codec (section 4.2), missing from
this repository; failure is `none`. -/
def decode (token : String) : Option Doc :=
  parseDoc token.data

/-! ### Page load (`src/src/index.tsx` lines 79-88)

On mount the component decodes `window.location.pathname.slice(1)`; on
success it stores the decoded title and verse list, on failure it only logs
(the `catch` branch), and in both cases the `finally` branch sets `loaded`
to true.  The initial state has title `''` (`useState('')`) and an empty
verse list (the reducer's initial value `[]`). -/

/-- The component state the load effect touches. -/
structure AppState where
  title : String
  verses : List Verse
  loaded : Bool
deriving Repr, DecidableEq

/-- The state before the load effect runs. -/
def initialAppState : AppState := ⟨"", [], false⟩

/-- The load effect given the decode result: `then` stores the document,
`catch` only logs, `finally` sets `loaded`. -/
def loadEffect (result : Option Doc) (s : AppState) : AppState :=
  match result with
  | some d => { title := d.title, verses := d.verses, loaded := true }
  | none => { s with loaded := true }

/-- The state after a page load at the given path. -/
def pageLoad (pathname : String) : AppState :=
  loadEffect (decode (pathname.drop 1)) initialAppState

/-! ### Supporting lemmas -/

/-- Splitting always yields at least one part (as `String.prototype.split`
does). -/
theorem splitCommaAux_length_pos (l acc : List Char) :
    0 < (splitCommaAux l acc).length := by
  induction l generalizing acc with
  | nil => simp [splitCommaAux]
  | cons c rest ih =>
      by_cases hc : c = ','
      · simp [splitCommaAux, hc]
      · simpa [splitCommaAux, hc] using ih (c :: acc)

/-- `splitComma` never returns the empty list. -/
theorem splitComma_length_pos (s : String) : 0 < (splitComma s).length := by
  simpa [splitComma] using splitCommaAux_length_pos s.data []

/-- A string starting with three dots is never empty. -/
theorem dots_append_ne_empty (part : String) : ("..." ++ part) ≠ "" := by
  intro h
  have h0 : ("..." ++ part).length = 0 := by rw [h]; rfl
  rw [String.length_append] at h0
  have h3 : ("..." : String).length = 3 := rfl
  omega

/-- Merging a patch into a missing object keeps exactly the patch's
fields. -/
theorem mergeObj_none (p : VerseObj) : mergeObj none p = p := by
  simp [mergeObj]

/-! ### C1 -/

/-- C1: the claim states that dispatching a delete action for an in-range
index `k` removes exactly the element at `k`.  The delete branch instead
evaluates two mutating `splice` calls on the same array, so deleting index
1 from a three-element list also drops the element at index 2: the result
is `[a]` rather than `[a, c]`.  This theorem evaluates the reducer at that
failing input. -/
theorem delete_drops_following_elements :
    updateVerses
        [VerseObj.ofVerse ⟨"a", 0⟩, VerseObj.ofVerse ⟨"b", 0⟩, VerseObj.ofVerse ⟨"c", 0⟩]
        (.delete 1) = [VerseObj.ofVerse ⟨"a", 0⟩] ∧
      [VerseObj.ofVerse ⟨"a", 0⟩] ≠
        [VerseObj.ofVerse ⟨"a", 0⟩, VerseObj.ofVerse ⟨"c", 0⟩] := by
  constructor
  · rfl
  · decide

/-! ### C5 -/

/-- C5 counterexample: the claim states that an out-of-range index is a
no-op or an error.  Dispatching an update at index 0 on the empty list (an
out-of-range index, and exactly what the Add Verse button does) instead
appends a new element. -/
theorem update_at_length_appends :
    updateVerses [] (.update 0 { text := some "", pause := some 1000 }) =
        [{ text := some "", pause := some 1000 }] ∧
      [({ text := some "", pause := some 1000 } : VerseObj)] ≠ [] := by
  constructor
  · rfl
  · decide

/-- C5 (amended): the delete branch with an out-of-range index returns the
list unchanged; the update branch does not range-check: with an
out-of-range index it appends an object carrying exactly the patch's
fields (which is how the Add Verse button inserts, at index `length`).
Neither branch can fail. -/
theorem out_of_range_index_ops (vs : List VerseObj) (i : Nat) (p : VerseObj)
    (h : vs.length ≤ i) :
    updateVerses vs (.delete i) = vs ∧
      updateVerses vs (.update i p) = vs ++ [p] := by
  constructor
  · simp [updateVerses, List.take_of_length_le h,
      List.drop_of_length_le (show vs.length ≤ 2 * i + 1 by omega)]
  · simp [updateVerses, List.getElem?_eq_none h, mergeObj_none,
      List.take_of_length_le h,
      List.drop_of_length_le (show vs.length ≤ i + 1 by omega)]

/-- Witness for `out_of_range_index_ops` at the empty store and index 0. -/
theorem out_of_range_index_ops_witness :
    updateVerses [] (.delete 0) = [] ∧
      updateVerses [] (.update 0 { text := some "x", pause := none }) =
        [] ++ [{ text := some "x", pause := none }] :=
  out_of_range_index_ops [] 0 { text := some "x", pause := none } (by decide)

/-! ### C8 -/

/-- C8: when decoding the URL path token fails (malformed or absent), the
load effect leaves the empty document (title `""`, no verses), propagates
no error, and still sets `loaded`. -/
theorem load_failure_yields_empty_document (pathname : String)
    (h : decode (pathname.drop 1) = none) :
    pageLoad pathname = { title := "", verses := [], loaded := true } := by
  simp [pageLoad, h, loadEffect, initialAppState]

/-- Witness for `load_failure_yields_empty_document` at the bare path `/`
(absent token). -/
theorem load_failure_yields_empty_document_witness :
    pageLoad "/" = { title := "", verses := [], loaded := true } :=
  load_failure_yields_empty_document "/" (by decide)

/-! ### C9 -/

/-- C9: the verse text is split at the delimiter into one spoken segment
per part; every non-final segment carries the fixed 300 ms inter-segment
pause, only the final segment carries the verse's own pause, and the fixed
300 ms is shorter than the 1000 ms default verse pause of Add Verse. -/
theorem delimiter_split_segment_pauses (v : Verse) :
    (makeUtterances v).length = (splitComma v.text).length ∧
      (∀ i, i + 1 < (splitComma v.text).length →
        ((makeUtterances v)[i]?).map UtteranceInfo.pause = some 300) ∧
      ((makeUtterances v)[(splitComma v.text).length - 1]?).map UtteranceInfo.pause =
        some v.pause ∧
      (300 : Nat) < 1000 := by
  refine ⟨by simp [makeUtterances], ?_, ?_, by omega⟩
  · intro i hi
    have hip : i < (splitComma v.text).length := by omega
    have hne : i ≠ (splitComma v.text).length - 1 := by omega
    simp [makeUtterances, List.getElem?_map, List.getElem?_enum,
      List.getElem?_eq_getElem hip, hne]
  · have hpos := splitComma_length_pos v.text
    have hip : (splitComma v.text).length - 1 < (splitComma v.text).length := by omega
    simp [makeUtterances, List.getElem?_map, List.getElem?_enum,
      List.getElem?_eq_getElem hip]

/-- Witness for `delimiter_split_segment_pauses` on the verse `a,b`. -/
theorem delimiter_split_segment_pauses_witness :
    ((makeUtterances ⟨"a,b", 700⟩)[0]?).map UtteranceInfo.pause = some 300 :=
  (delimiter_split_segment_pauses ⟨"a,b", 700⟩).2.1 0 (by decide)

/-! ### C10 -/

/-- C10: every utterance built from a verse has non-empty text (an empty
verse text is spoken as a single space) and carries the fixed rate 0.6 and
pitch 0.6; this holds for `makeUtterance` of `src/src/index.tsx` and for
every segment utterance of `makeUtterances` of `part_001`. -/
theorem utterance_nonempty_fixed_rate_pitch (v : Verse) :
    (makeUtterance v).utterance.text ≠ "" ∧
      (makeUtterance v).utterance.rate = 6/10 ∧
      (makeUtterance v).utterance.pitch = 6/10 ∧
      (v.text = "" → (makeUtterance v).utterance.text = " ") ∧
      (∀ u ∈ makeUtterances v,
        u.utterance.text ≠ "" ∧ u.utterance.rate = 6/10 ∧ u.utterance.pitch = 6/10) ∧
      (v.text = "" → (makeUtterances v).map (fun u => u.utterance.text) = [" "]) := by
  refine ⟨?_, rfl, rfl, ?_, ?_, ?_⟩
  · by_cases h : v.text = "" <;> simp [makeUtterance, h]
  · intro h
    simp [makeUtterance, h]
  · intro u hu
    simp only [makeUtterances, List.mem_map] at hu
    obtain ⟨ip, _, rfl⟩ := hu
    refine ⟨?_, rfl, rfl⟩
    by_cases h : ip.2 = ""
    · simp [h]
    · simpa [h] using dots_append_ne_empty ip.2
  · intro h
    have hp : splitComma v.text = [""] := by rw [h]; rfl
    simp only [makeUtterances, hp]
    rfl

/-- Witness for `utterance_nonempty_fixed_rate_pitch` on the empty verse. -/
theorem utterance_nonempty_fixed_rate_pitch_witness :
    (makeUtterance ⟨"", 5⟩).utterance.text = " " :=
  (utterance_nonempty_fixed_rate_pitch ⟨"", 5⟩).2.2.2.1 rfl

/-! ### Trace lemmas for the uninterrupted playback run -/

/-- Every event of `playAux jobs i t0` happens no earlier than `t0`. -/
theorem playAux_time_lb (jobs : List (Nat × Nat)) (i t0 : Nat) :
    ∀ e ∈ playAux jobs i t0, t0 ≤ e.1 := by
  induction jobs generalizing i t0 with
  | nil => simp [playAux]
  | cons j rest ih =>
      obtain ⟨d, p⟩ := j
      intro e he
      simp only [playAux, List.mem_append] at he
      rcases he with he | he
      · simp only [speakEvents, List.mem_cons, List.not_mem_nil, or_false] at he
        rcases he with rfl | rfl | rfl | rfl <;> simp
      · have := ih (i + 1) (t0 + d + p) e he
        omega

/-- Before `t0` no event of the tail trace has happened yet. -/
theorem playAux_filter_time_nil (jobs : List (Nat × Nat)) (i t0 t : Nat) (h : t < t0) :
    (playAux jobs i t0).filter (fun e => decide (e.1 ≤ t)) = [] := by
  rw [List.filter_eq_nil_iff]
  intro e he
  have := playAux_time_lb jobs i t0 e he
  simp only [decide_eq_true_eq]
  omega

/-- The value of `currentVerse` along the trace of a run, job by job: -1
before the job starts, the job's index while its utterance is in flight, -1
during its pause, and whatever the remaining jobs produce afterwards. -/
theorem stateAt_playAux_cons (d p : Nat) (rest : List (Nat × Nat)) (i t0 t : Nat) :
    stateAt (playAux ((d, p) :: rest) i t0) t =
      if t < t0 then -1
      else if t < t0 + d then ((i : Nat) : Int)
      else if t < t0 + d + p then -1
      else stateAt (playAux rest (i + 1) (t0 + d + p)) t := by
  show stateAt (speakEvents i d t0 ++ playAux rest (i + 1) (t0 + d + p)) t = _
  unfold stateAt
  rw [List.filter_append, List.foldl_append]
  rcases Nat.lt_or_ge t t0 with h1 | h1
  · rw [playAux_filter_time_nil rest (i + 1) (t0 + d + p) t (by omega)]
    have ha : ¬ (t0 ≤ t) := by omega
    have hb : ¬ (t0 + d ≤ t) := by omega
    simp [speakEvents, List.filter, ha, hb, h1]
  · rcases Nat.lt_or_ge t (t0 + d) with h2 | h2
    · rw [playAux_filter_time_nil rest (i + 1) (t0 + d + p) t (by omega)]
      have hb : ¬ (t0 + d ≤ t) := by omega
      simp [speakEvents, List.filter, h1, hb, applyEvent,
        if_neg (show ¬ t < t0 by omega), if_pos h2]
    · rcases Nat.lt_or_ge t (t0 + d + p) with h3 | h3
      · rw [playAux_filter_time_nil rest (i + 1) (t0 + d + p) t (by omega)]
        have hb : (t0 + d ≤ t) := h2
        simp [speakEvents, List.filter, h1, hb, applyEvent,
          if_neg (show ¬ t < t0 by omega), if_neg (show ¬ t < t0 + d by omega),
          if_pos h3]
      · have hb : (t0 + d ≤ t) := h2
        simp only [speakEvents, List.filter, h1, hb, decide_eq_true_eq, decide_True,
          if_neg (show ¬ t < t0 by omega), if_neg (show ¬ t < t0 + d by omega),
          if_neg (show ¬ t < t0 + d + p by omega)]
        simp [applyEvent, stateAt, h1, hb]

/-- The first job starts when the run starts. -/
theorem jobStart_zero (jobs : List (Nat × Nat)) : jobStart jobs 0 = 0 := by
  simp [jobStart]

/-- Start times unfold along the job list. -/
theorem jobStart_cons_succ (d p : Nat) (rest : List (Nat × Nat)) (k : Nat) :
    jobStart ((d, p) :: rest) (k + 1) = d + p + jobStart rest k := by
  simp [jobStart, List.take_succ_cons]

/-- Job `k + 1` starts exactly when job `k`'s utterance has ended and its
pause has elapsed. -/
theorem jobStart_succ (jobs : List (Nat × Nat)) (k : Nat) (hk : k < jobs.length) :
    jobStart jobs (k + 1) =
      jobStart jobs k + (jobs.getD k (0, 0)).1 + (jobs.getD k (0, 0)).2 := by
  induction jobs generalizing k with
  | nil => simp at hk
  | cons j rest ih =>
      obtain ⟨d, p⟩ := j
      cases k with
      | zero => simp [jobStart_cons_succ, jobStart_zero]
      | succ k' =>
          have := ih k' (by simpa using hk)
          simp only [jobStart_cons_succ, List.getD_cons_succ, this]
          omega

/-- Start times never decrease by one step. -/
theorem jobStart_le_succ (jobs : List (Nat × Nat)) (n : Nat) :
    jobStart jobs n ≤ jobStart jobs (n + 1) := by
  rcases Nat.lt_or_ge n jobs.length with h | h
  · rw [jobStart_succ jobs n h]; omega
  · have : jobStart jobs (n + 1) = jobStart jobs n := by
      simp [jobStart, List.take_of_length_le h,
        List.take_of_length_le (show jobs.length ≤ n + 1 by omega)]
    omega

/-- Start times are monotone. -/
theorem jobStart_mono (jobs : List (Nat × Nat)) {m n : Nat} (h : m ≤ n) :
    jobStart jobs m ≤ jobStart jobs n := by
  induction n with
  | zero => simp_all
  | succ n ih =>
      rcases Nat.lt_or_ge m (n + 1) with h' | h'
      · exact le_trans (ih (by omega)) (jobStart_le_succ jobs n)
      · have : m = n + 1 := by omega
        simp [this]

/-- An earlier job's utterance has ended (and more) by the time a later
job starts. -/
theorem spans_ordered (jobs : List (Nat × Nat)) {j k : Nat} (hjk : j < k)
    (hk : k ≤ jobs.length) :
    jobStart jobs j + (jobs.getD j (0, 0)).1 ≤ jobStart jobs k := by
  have hj : j < jobs.length := by omega
  have h1 : jobStart jobs j + (jobs.getD j (0, 0)).1 ≤ jobStart jobs (j + 1) := by
    rw [jobStart_succ jobs j hj]; omega
  exact le_trans h1 (jobStart_mono jobs (by omega))

/-- The tail trace contains no `speakStart` for an index below its first
job's index. -/
theorem playAux_filter_speakStart_lt (jobs : List (Nat × Nat)) (i t0 m : Nat)
    (h : m < i) :
    (playAux jobs i t0).filter (fun e => decide (e.2 = PlayEvent.speakStart m)) = [] := by
  induction jobs generalizing i t0 with
  | nil => simp [playAux]
  | cons j rest ih =>
      obtain ⟨d, p⟩ := j
      simp only [playAux, List.filter_append]
      rw [ih (i + 1) (t0 + d + p) (by omega)]
      simp [speakEvents, List.filter, show ¬ i = m by omega]

/-- The tail trace contains no `speakEnd` for an index below its first
job's index. -/
theorem playAux_filter_speakEnd_lt (jobs : List (Nat × Nat)) (i t0 m : Nat)
    (h : m < i) :
    (playAux jobs i t0).filter (fun e => decide (e.2 = PlayEvent.speakEnd m)) = [] := by
  induction jobs generalizing i t0 with
  | nil => simp [playAux]
  | cons j rest ih =>
      obtain ⟨d, p⟩ := j
      simp only [playAux, List.filter_append]
      rw [ih (i + 1) (t0 + d + p) (by omega)]
      simp [speakEvents, List.filter, show ¬ i = m by omega]

/-- Job `k`'s utterance is handed to the engine exactly once, at the job's
start time. -/
theorem playAux_filter_speakStart (jobs : List (Nat × Nat)) (i t0 k : Nat)
    (hk : k < jobs.length) :
    (playAux jobs i t0).filter (fun e => decide (e.2 = PlayEvent.speakStart (i + k))) =
      [(t0 + jobStart jobs k, PlayEvent.speakStart (i + k))] := by
  induction jobs generalizing i t0 k with
  | nil => simp at hk
  | cons j rest ih =>
      obtain ⟨d, p⟩ := j
      simp only [playAux, List.filter_append]
      cases k with
      | zero =>
          rw [show i + 0 = i from rfl]
          rw [playAux_filter_speakStart_lt rest (i + 1) (t0 + d + p) i (by omega)]
          simp [speakEvents, List.filter, jobStart_zero]
      | succ k' =>
          rw [show i + (k' + 1) = (i + 1) + k' by omega]
          rw [ih (i + 1) (t0 + d + p) k' (by simpa using hk)]
          simp only [speakEvents, List.filter, jobStart_cons_succ]
          simp [show ¬ i = i + 1 + k' by omega]
          omega

/-- Job `k`'s utterance fires its `end` event exactly once, when its
speech duration has elapsed after the job's start. -/
theorem playAux_filter_speakEnd (jobs : List (Nat × Nat)) (i t0 k : Nat)
    (hk : k < jobs.length) :
    (playAux jobs i t0).filter (fun e => decide (e.2 = PlayEvent.speakEnd (i + k))) =
      [(t0 + jobStart jobs k + (jobs.getD k (0, 0)).1, PlayEvent.speakEnd (i + k))] := by
  induction jobs generalizing i t0 k with
  | nil => simp at hk
  | cons j rest ih =>
      obtain ⟨d, p⟩ := j
      simp only [playAux, List.filter_append]
      cases k with
      | zero =>
          rw [show i + 0 = i from rfl]
          rw [playAux_filter_speakEnd_lt rest (i + 1) (t0 + d + p) i (by omega)]
          simp [speakEvents, List.filter, jobStart_zero]
      | succ k' =>
          rw [show i + (k' + 1) = (i + 1) + k' by omega]
          rw [ih (i + 1) (t0 + d + p) k' (by simpa using hk)]
          simp only [speakEvents, List.filter, jobStart_cons_succ, List.getD_cons_succ]
          simp [show ¬ i = i + 1 + k' by omega]
          omega

/-- The published value along a run's trace is either -1 or the index of
one of the run's jobs. -/
theorem stateAt_playAux_range (jobs : List (Nat × Nat)) (i t0 t : Nat) :
    stateAt (playAux jobs i t0) t = -1 ∨
      ∃ j, j < jobs.length ∧ stateAt (playAux jobs i t0) t = ((i + j : Nat) : Int) := by
  induction jobs generalizing i t0 with
  | nil => left; rfl
  | cons jb rest ih =>
      obtain ⟨d, p⟩ := jb
      rw [stateAt_playAux_cons]
      split_ifs with h1 h2 h3
      · left; rfl
      · right; exact ⟨0, by simp, by simp⟩
      · left; rfl
      · rcases ih (i + 1) (t0 + d + p) with h | ⟨j, hj, hv⟩
        · left; exact h
        · right
          refine ⟨j + 1, by simpa using hj, ?_⟩
          rw [hv]
          congr 1
          omega

/-- The published value equals a job's index precisely while that job's
utterance is in flight. -/
theorem stateAt_playAux_eq_iff (jobs : List (Nat × Nat)) (i t0 t k : Nat) :
    stateAt (playAux jobs i t0) t = ((i + k : Nat) : Int) ↔
      (k < jobs.length ∧ t0 + jobStart jobs k ≤ t ∧
        t < t0 + jobStart jobs k + (jobs.getD k (0, 0)).1) := by
  induction jobs generalizing i t0 k with
  | nil =>
      constructor
      · intro h
        rw [show stateAt (playAux [] i t0) t = -1 from rfl] at h
        exact absurd h (by omega)
      · rintro ⟨hk, -⟩
        simp at hk
  | cons jb rest ih =>
      obtain ⟨d, p⟩ := jb
      rw [stateAt_playAux_cons]
      split_ifs with h1 h2 h3
      · constructor
        · intro h
          simp at h
        · rintro ⟨hk, hs, -⟩
          exfalso
          have h0 : t0 ≤ t := le_trans (Nat.le_add_right t0 _) hs
          omega
      · constructor
        · intro h
          have hk0 : k = 0 := by omega
          subst hk0
          refine ⟨by simp, ?_, ?_⟩
          · rw [jobStart_zero]; omega
          · rw [jobStart_zero]; simpa using (by omega : t < t0 + 0 + d)
        · rintro ⟨hk, hs, he⟩
          cases k with
          | zero => simp
          | succ k' =>
              exfalso
              rw [jobStart_cons_succ] at hs
              omega
      · constructor
        · intro h
          simp at h
        · rintro ⟨hk, hs, he⟩
          exfalso
          cases k with
          | zero =>
              rw [jobStart_zero] at he
              simp only [List.getD_cons_zero] at he
              omega
          | succ k' =>
              rw [jobStart_cons_succ] at hs
              omega
      · cases k with
        | zero =>
            constructor
            · intro h
              exfalso
              rcases stateAt_playAux_range rest (i + 1) (t0 + d + p) t with hr | ⟨j, hj, hv⟩
              · rw [hr] at h; omega
              · rw [hv] at h; omega
            · rintro ⟨hk, hs, he⟩
              exfalso
              rw [jobStart_zero] at he
              simp only [List.getD_cons_zero] at he
              omega
        | succ k' =>
            rw [show i + (k' + 1) = (i + 1) + k' by omega]
            rw [ih (i + 1) (t0 + d + p) k']
            constructor
            · rintro ⟨hj, hs, he⟩
              refine ⟨by simpa using hj, ?_, ?_⟩
              · rw [jobStart_cons_succ]; omega
              · rw [jobStart_cons_succ]
                simp only [List.getD_cons_succ]
                omega
            · rintro ⟨hk, hs, he⟩
              rw [jobStart_cons_succ] at hs he
              simp only [List.getD_cons_succ] at he
              exact ⟨by simpa using hk, by omega, by omega⟩

/-- The job list of a run has one job per verse. -/
theorem runJobs_length (vs : List Verse) (ds : List Nat) (h : ds.length = vs.length) :
    (runJobs vs ds).length = vs.length := by
  simp [runJobs, playJobs, h]

/-- `playTrace` is the trace of the run's job list from index 0 and time 0. -/
theorem playTrace_eq (vs : List Verse) (ds : List Nat) :
    playTrace vs ds = playAux (runJobs vs ds) 0 0 := rfl

/-! ### C2 -/

/-- C2: an uninterrupted `play()` run builds one utterance job per verse in
document order, hands each job's utterance to the engine exactly once,
starts job `k + 1` exactly when job `k`'s utterance has ended and its pause
has elapsed, never has two utterances in flight at once, and on the
two-verse document `[A(pause 500), B(pause 300)]` publishes
`currentIndex = 0`, then (after A's utterance ends and 500 ms elapse)
`currentIndex = 1`, and `currentIndex = none` from B's utterance end on, in
particular after B's pause has elapsed. -/
theorem play_strictly_sequential (vs : List Verse) (ds : List Nat)
    (h : ds.length = vs.length) :
    ((playJobs vs).length = vs.length ∧
      ∀ k : Nat, (playJobs vs)[k]? = (vs[k]?).map makeUtterance) ∧
    (∀ k, k < vs.length →
      (playTrace vs ds).filter (fun e => decide (e.2 = PlayEvent.speakStart k)) =
        [(jobStart (runJobs vs ds) k, PlayEvent.speakStart k)]) ∧
    (∀ k, k < vs.length →
      (playTrace vs ds).filter (fun e => decide (e.2 = PlayEvent.speakEnd k)) =
        [(jobStart (runJobs vs ds) k + ((runJobs vs ds).getD k (0, 0)).1,
          PlayEvent.speakEnd k)]) ∧
    (∀ k, k < vs.length →
      jobStart (runJobs vs ds) (k + 1) =
        jobStart (runJobs vs ds) k + ((runJobs vs ds).getD k (0, 0)).1 +
          ((runJobs vs ds).getD k (0, 0)).2) ∧
    (∀ j k t, inFlight vs ds j t → inFlight vs ds k t → j = k) ∧
    (∀ (a b : String) (dA dB : Nat),
      playTrace [⟨a, 500⟩, ⟨b, 300⟩] [dA, dB] =
        [(0, .setCurrent 0), (0, .speakStart 0),
         (dA, .speakEnd 0), (dA, .setCurrent (-1)),
         (dA + 500, .setCurrent 1), (dA + 500, .speakStart 1),
         (dA + 500 + dB, .speakEnd 1), (dA + 500 + dB, .setCurrent (-1))]) := by
  refine ⟨⟨by simp [playJobs], fun k => by simp [playJobs, List.getElem?_map]⟩,
    ?_, ?_, ?_, ?_, ?_⟩
  · intro k hk
    have hk' : k < (runJobs vs ds).length := by rw [runJobs_length vs ds h]; exact hk
    simpa [playTrace_eq] using playAux_filter_speakStart (runJobs vs ds) 0 0 k hk'
  · intro k hk
    have hk' : k < (runJobs vs ds).length := by rw [runJobs_length vs ds h]; exact hk
    simpa [playTrace_eq] using playAux_filter_speakEnd (runJobs vs ds) 0 0 k hk'
  · intro k hk
    exact jobStart_succ (runJobs vs ds) k (by rw [runJobs_length vs ds h]; exact hk)
  · intro j k t hj hk
    obtain ⟨hjl, hjs, hje⟩ := hj
    obtain ⟨hkl, hks, hke⟩ := hk
    rcases Nat.lt_trichotomy j k with hlt | heq | hgt
    · exfalso
      have := spans_ordered (runJobs vs ds) hlt (le_of_lt hkl)
      omega
    · exact heq
    · exfalso
      have := spans_ordered (runJobs vs ds) hgt (le_of_lt hjl)
      omega
  · intro a b dA dB
    simp [playTrace, playJobs, makeUtterance, playAux, speakEvents]

/-- Witness for `play_strictly_sequential`: on a concrete two-verse run,
the second verse's utterance enters the engine exactly once, at the moment
the first utterance's 100 ms of speech and 500 ms of pause have passed. -/
theorem play_strictly_sequential_witness :
    (playTrace [⟨"a", 500⟩, ⟨"b", 300⟩] [100, 200]).filter
        (fun e => decide (e.2 = PlayEvent.speakStart 1)) =
      [(jobStart (runJobs [⟨"a", 500⟩, ⟨"b", 300⟩] [100, 200]) 1,
        PlayEvent.speakStart 1)] :=
  (play_strictly_sequential [⟨"a", 500⟩, ⟨"b", 300⟩] [100, 200] rfl).2.1 1 (by decide)

/-! ### C7 -/

/-- C7: along an uninterrupted `play()` run, the published `currentVerse`
equals a verse index exactly while that verse's utterance job is in flight,
and equals -1 (none) exactly when no utterance is in flight — in
particular throughout every inter-job pause. -/
theorem currentIndex_matches_active_job (vs : List Verse) (ds : List Nat)
    (h : ds.length = vs.length) (t : Nat) :
    (∀ k : Nat, stateAt (playTrace vs ds) t = ((k : Nat) : Int) ↔ inFlight vs ds k t) ∧
    (stateAt (playTrace vs ds) t = -1 ↔ ∀ k, ¬ inFlight vs ds k t) := by
  have hmain : ∀ k : Nat, stateAt (playTrace vs ds) t = ((k : Nat) : Int) ↔
      inFlight vs ds k t := by
    intro k
    have := stateAt_playAux_eq_iff (runJobs vs ds) 0 0 t k
    simpa [playTrace_eq, inFlight] using this
  refine ⟨hmain, ?_, ?_⟩
  · intro hv k hk
    rw [← hmain k] at hk
    rw [hk] at hv
    omega
  · intro hnone
    rcases stateAt_playAux_range (runJobs vs ds) 0 0 t with hr | ⟨j, hj, hv⟩
    · simpa [playTrace_eq] using hr
    · exfalso
      refine hnone j ?_
      rw [← hmain j]
      simpa [playTrace_eq] using hv

/-- Witness for `currentIndex_matches_active_job`: on a concrete one-verse
run, 50 ms into a 100 ms utterance the published index is 0. -/
theorem currentIndex_matches_active_job_witness :
    stateAt (playTrace [⟨"a", 500⟩] [100]) 50 = ((0 : Nat) : Int) :=
  ((currentIndex_matches_active_job [⟨"a", 500⟩] [100] rfl 50).1 0).mpr (by decide)

/-! ### Machine lemmas -/

/-- Unfold the timer bound check on one run phase. -/
theorem timerOf_bound_iff (ph : RunPhase) (n : Nat) :
    ((ph.timerOf.map fun t => decide (t < n)).getD true = true) ↔
      ∀ tid rest, ph = RunPhase.pausing tid rest → tid < n := by
  cases ph <;> simp [RunPhase.timerOf]

/-- The timer consistency invariant, in propositional form. -/
theorem timersWF_iff (s : Machine) :
    timersWF s = true ↔
      ((∀ td ∈ s.liveTimers, td < s.nextTid) ∧
        ∀ ph ∈ s.runs, ∀ tid rest, ph = RunPhase.pausing tid rest → tid < s.nextTid) := by
  simp only [timersWF, Bool.and_eq_true, List.all_eq_true]
  constructor
  · rintro ⟨h1, h2⟩
    exact ⟨fun td h => by simpa using h1 td h,
      fun ph hph => (timerOf_bound_iff ph _).mp (h2 ph hph)⟩
  · rintro ⟨h1, h2⟩
    exact ⟨fun td h => by simpa using h1 td h,
      fun ph hph => (timerOf_bound_iff ph _).mpr (h2 ph hph)⟩

/-- A paused run's timer identifier is below the fresh counter. -/
theorem timersWF_pausing_lt (s : Machine) (hwf : timersWF s = true) (r tid : Nat)
    (rest : List (Nat × Nat)) (hr : s.runs[r]? = some (RunPhase.pausing tid rest)) :
    tid < s.nextTid := by
  obtain ⟨hlt, hv⟩ := List.getElem?_eq_some.mp hr
  exact ((timersWF_iff s).mp hwf).2 _ (hv ▸ List.getElem_mem hlt) tid rest rfl

/-- The element found by `findIdx?` satisfies the predicate. -/
theorem findIdx?_spec {α : Type} (p : α → Bool) (l : List α) (i : Nat)
    (h : List.findIdx? p l = some i) : ∃ a, l[i]? = some a ∧ p a = true := by
  rw [List.findIdx?_eq_some_iff_findIdx_eq] at h
  obtain ⟨hlt, hidx⟩ := h
  refine ⟨l[i], by simp [List.getElem?_eq_getElem hlt], ?_⟩
  subst hidx
  exact List.findIdx_getElem

/-- Every step of the machine preserves timer consistency. -/
theorem timersWF_step (rev : Rev) (s : Machine) (e : MEvent)
    (hwf : timersWF s = true) : timersWF (step rev s e) = true := by
  rw [timersWF_iff] at hwf
  obtain ⟨hlive, hruns⟩ := hwf
  cases e with
  | clickPlay jobs =>
      simp only [step]
      split_ifs with hg
      · exact (timersWF_iff s).mpr ⟨hlive, hruns⟩
      · rw [timersWF_iff]
        refine ⟨hlive, fun ph hph => ?_⟩
        rcases List.mem_append.mp hph with h | h
        · exact hruns ph h
        · simp only [List.mem_singleton] at h
          subst h
          intro tid rest h
          cases h
  | microStep r =>
      simp only [step]
      split
      · rw [timersWF_iff]
        refine ⟨hlive, fun ph hph => ?_⟩
        rcases List.mem_or_eq_of_mem_set hph with h | h
        · exact hruns ph h
        · subst h; intro tid rest h; cases h
      · simp only [doSpeak]
        split_ifs with hg
        · rw [timersWF_iff]
          refine ⟨hlive, fun ph hph => ?_⟩
          rcases List.mem_or_eq_of_mem_set hph with h | h
          · exact hruns ph h
          · subst h; intro tid rest h; cases h
        · rw [timersWF_iff]
          refine ⟨hlive, fun ph hph => ?_⟩
          rcases List.mem_or_eq_of_mem_set hph with h | h
          · exact hruns ph h
          · subst h; intro tid rest h; cases h
      · exact (timersWF_iff s).mpr ⟨hlive, hruns⟩
  | engineEnd =>
      simp only [step]
      split
      · exact (timersWF_iff s).mpr ⟨hlive, hruns⟩
      · split
        · rw [timersWF_iff]
          constructor
          · intro td htd
            rcases List.mem_append.mp htd with h | h
            · exact Nat.lt_succ_of_lt (hlive td h)
            · simp only [List.mem_singleton] at h
              subst h
              exact Nat.lt_succ_self _
          · intro ph hph
            rcases List.mem_or_eq_of_mem_set hph with h | h
            · intro tid rest h'
              exact Nat.lt_succ_of_lt (hruns ph h tid rest h')
            · subst h
              intro tid rest h'
              cases h'
              exact Nat.lt_succ_self _
        · exact (timersWF_iff s).mpr ⟨hlive, hruns⟩
  | timerFire tid2 =>
      simp only [step]
      split_ifs with hl
      · have hlive' : ∀ td ∈ s.liveTimers.filter (fun t => !(t == tid2)), td < s.nextTid :=
          fun td htd => hlive td (List.mem_filter.mp htd).1
        split
        · split
          · rw [timersWF_iff]
            refine ⟨hlive', fun ph hph => ?_⟩
            rcases List.mem_or_eq_of_mem_set hph with h | h
            · exact hruns ph h
            · subst h; intro tid rest h; cases h
          · simp only [doSpeak]
            split_ifs with hg
            · rw [timersWF_iff]
              refine ⟨hlive', fun ph hph => ?_⟩
              rcases List.mem_or_eq_of_mem_set hph with h | h
              · exact hruns ph h
              · subst h; intro tid rest h; cases h
            · rw [timersWF_iff]
              refine ⟨hlive', fun ph hph => ?_⟩
              rcases List.mem_or_eq_of_mem_set hph with h | h
              · exact hruns ph h
              · subst h; intro tid rest h; cases h
          · exact (timersWF_iff _).mpr ⟨hlive', hruns⟩
        · exact (timersWF_iff _).mpr ⟨hlive', hruns⟩
      · exact (timersWF_iff s).mpr ⟨hlive, hruns⟩
  | clickStop =>
      have hlive' : ∀ td ∈ s.liveTimers.filter
          (fun t => !(Int.ofNat t == s.currentTimeout)), td < s.nextTid :=
        fun td htd => hlive td (List.mem_filter.mp htd).1
      simp only [step]
      split_ifs with hc
      · exact (timersWF_iff _).mpr ⟨hlive', hruns⟩
      · exact (timersWF_iff _).mpr ⟨hlive', hruns⟩

/-- A paused run whose timer is no longer live can never advance: no event
revives it (its timer identifier is dead and stays dead, and every other
transition touches a different run). -/
theorem stuck_pausing_step (rev : Rev) (s : Machine) (e : MEvent) (r tid : Nat)
    (rest : List (Nat × Nat))
    (hwf : timersWF s = true)
    (hr : s.runs[r]? = some (RunPhase.pausing tid rest))
    (hdead : tid ∉ s.liveTimers) :
    (step rev s e).runs[r]? = some (RunPhase.pausing tid rest) ∧
      tid ∉ (step rev s e).liveTimers := by
  have hrlt : r < s.runs.length := (List.getElem?_eq_some.mp hr).1
  cases e with
  | clickPlay jobs =>
      simp only [step]
      split_ifs with hg
      · exact ⟨hr, hdead⟩
      · refine ⟨?_, hdead⟩
        simpa [List.getElem?_append_left hrlt] using hr
  | microStep r' =>
      simp only [step]
      split
      · rename_i hm
        have hne : r' ≠ r := by
          rintro rfl
          rw [hr] at hm
          simp at hm
        refine ⟨?_, hdead⟩
        simpa [List.getElem?_set_ne hne] using hr
      · rename_i j rest' hm
        have hne : r' ≠ r := by
          rintro rfl
          rw [hr] at hm
          simp at hm
        simp only [doSpeak]
        split_ifs with hg
        · refine ⟨?_, hdead⟩
          simpa [List.getElem?_set_ne hne] using hr
        · refine ⟨?_, hdead⟩
          simpa [List.getElem?_set_ne hne] using hr
      · exact ⟨hr, hdead⟩
  | engineEnd =>
      simp only [step]
      split
      · exact ⟨hr, hdead⟩
      · rename_i r2 snd q heq
        split
        · rename_i cur rest2 hm
          have hne : r2 ≠ r := by
            rintro rfl
            rw [hr] at hm
            simp at hm
          constructor
          · simpa [List.getElem?_set_ne hne] using hr
          · intro hmem
            rcases List.mem_append.mp hmem with h | h
            · exact hdead h
            · simp only [List.mem_singleton] at h
              have hlt := timersWF_pausing_lt s hwf r tid rest hr
              omega
        · exact ⟨hr, hdead⟩
  | timerFire tid2 =>
      simp only [step]
      split_ifs with hl
      · have hne2 : tid2 ≠ tid := by
          rintro rfl
          exact hdead hl
        have hdead' : tid ∉ s.liveTimers.filter (fun t => !(t == tid2)) := by
          intro h
          exact hdead (List.mem_filter.mp h).1
        split
        · rename_i r2 hfind
          obtain ⟨ph2, hph2, hpred⟩ := findIdx?_spec _ _ _ hfind
          have hne : r2 ≠ r := by
            rintro rfl
            rw [hr] at hph2
            cases hph2
            simp at hpred
            exact hne2 hpred.symm
          split
          · rename_i hm
            refine ⟨?_, hdead'⟩
            simpa [List.getElem?_set_ne hne] using hr
          · rename_i j rest' hm
            simp only [doSpeak]
            split_ifs with hg
            · refine ⟨?_, hdead'⟩
              simpa [List.getElem?_set_ne hne] using hr
            · refine ⟨?_, hdead'⟩
              simpa [List.getElem?_set_ne hne] using hr
          · exact ⟨hr, hdead'⟩
        · exact ⟨hr, hdead'⟩
      · exact ⟨hr, hdead⟩
  | clickStop =>
      have hdead' : tid ∉ s.liveTimers.filter
          (fun t => !(Int.ofNat t == s.currentTimeout)) := by
        intro h
        exact hdead (List.mem_filter.mp h).1
      simp only [step]
      split_ifs with hc
      · exact ⟨hr, hdead'⟩
      · exact ⟨hr, hdead'⟩

/-- A paused run with a dead timer stays paused forever, over any event
sequence. -/
theorem stuck_pausing_steps (rev : Rev) (s : Machine) (evs : List MEvent)
    (r tid : Nat) (rest : List (Nat × Nat))
    (hwf : timersWF s = true)
    (hr : s.runs[r]? = some (RunPhase.pausing tid rest))
    (hdead : tid ∉ s.liveTimers) :
    (steps rev s evs).runs[r]? = some (RunPhase.pausing tid rest) ∧
      tid ∉ (steps rev s evs).liveTimers := by
  induction evs generalizing s with
  | nil => exact ⟨hr, hdead⟩
  | cons e evs ih =>
      obtain ⟨h1, h2⟩ := stuck_pausing_step rev s e r tid rest hwf hr hdead
      have h3 := timersWF_step rev s e hwf
      simpa [steps] using ih (step rev s e) h3 h1 h2

/-! ### C4 -/

/-- C4 counterexample: the claim states that `stop()` cancels the pending
speech synthesis job.  In `src/src/index.tsx` the Stop button only sets
`isPlaying` to false and clears the pause timer; after pressing Stop during
an utterance the utterance is still in the speech engine. -/
theorem stop_leaves_utterance_in_engine :
    (steps revMain initMachine
        [.clickPlay [(0, 500)], .microStep 0, .clickStop]).isPlaying = false ∧
      (steps revMain initMachine
        [.clickPlay [(0, 500)], .microStep 0, .clickStop]).engine = [(0, 0)] := by
  constructor
  · rfl
  · rfl

/-- C4 (amended): in `src/src/index.tsx`, `stop()` sets the machine Idle
immediately and clears the stored pause timer, and a run stopped during
job `i`'s pause stays paused forever (job `i + 1` never starts); the
`part_001` revision's `stop()` additionally cancels the speech engine queue
and clears the highlight, while `src/src/index.tsx` leaves the in-flight
utterance to finish on its own. -/
theorem stop_cancellation_behavior :
    (∀ s : Machine, (step revMain s .clickStop).isPlaying = false ∧
      (step revPartOne s .clickStop).isPlaying = false) ∧
    (∀ s : Machine, ∀ td ∈ (step revMain s .clickStop).liveTimers,
      Int.ofNat td ≠ s.currentTimeout) ∧
    (∀ s : Machine, (step revPartOne s .clickStop).engine = [] ∧
      (step revPartOne s .clickStop).currentVerse = -1) ∧
    (∀ (s : Machine) (r tid : Nat) (rest : List (Nat × Nat)) (evs : List MEvent),
      timersWF s = true →
      s.runs[r]? = some (RunPhase.pausing tid rest) →
      tid ∉ s.liveTimers →
      (steps revMain s evs).runs[r]? = some (RunPhase.pausing tid rest)) ∧
    (∀ (s : Machine) (r tid : Nat) (rest : List (Nat × Nat)) (evs : List MEvent),
      timersWF s = true →
      s.runs[r]? = some (RunPhase.pausing tid rest) →
      s.currentTimeout = Int.ofNat tid →
      (steps revMain (step revMain s .clickStop) evs).runs[r]? =
        some (RunPhase.pausing tid rest)) := by
  refine ⟨fun s => ⟨rfl, rfl⟩, ?_, fun s => ⟨rfl, rfl⟩, ?_, ?_⟩
  · intro s td htd
    have htd' : td ∈ s.liveTimers.filter
        (fun t => !(Int.ofNat t == s.currentTimeout)) := by
      simpa [step, revMain] using htd
    intro hc
    have hb := (List.mem_filter.mp htd').2
    simp [hc] at hb
    exact hb hc
  · intro s r tid rest evs hwf hr hdead
    exact (stuck_pausing_steps revMain s evs r tid rest hwf hr hdead).1
  · intro s r tid rest evs hwf hr hcur
    have h1 : (step revMain s .clickStop).runs[r]? =
        some (RunPhase.pausing tid rest) := hr
    have h2 : tid ∉ (step revMain s .clickStop).liveTimers := by
      intro hmem
      have hmem' : tid ∈ s.liveTimers.filter
          (fun t => !(Int.ofNat t == s.currentTimeout)) := by
        simpa [step, revMain] using hmem
      have hb := (List.mem_filter.mp hmem').2
      simp [hcur] at hb
    have h3 : timersWF (step revMain s .clickStop) = true :=
      timersWF_step revMain s .clickStop hwf
    exact (stuck_pausing_steps revMain _ evs r tid rest h3 h1 h2).1

/-- Witness for `stop_cancellation_behavior`: a concrete two-verse run,
stopped during the first verse's pause, never reaches the second verse
even if the cancelled timer is fired. -/
theorem stop_cancellation_behavior_witness :
    (steps revMain
        (step revMain
          (steps revMain initMachine
            [.clickPlay [(0, 100), (1, 200)], .microStep 0, .engineEnd])
          .clickStop)
        [.timerFire 0, .engineEnd, .microStep 0]).runs[0]? =
      some (RunPhase.pausing 0 [(1, 200)]) :=
  stop_cancellation_behavior.2.2.2.2
    (steps revMain initMachine
      [.clickPlay [(0, 100), (1, 200)], .microStep 0, .engineEnd])
    0 0 [(1, 200)] [.timerFire 0, .engineEnd, .microStep 0]
    (by decide) (by decide) (by decide)

/-! ### C6 -/

/-- C6 counterexample: the claim states that `play()` while already
Playing never starts an overlapping run.  In `src/src/index.tsx` the Play
button sets `isPlaying` and calls `play()` with no guard, so pressing Play
twice yields a reachable state with two runs in the speaking phase and two
utterances queued in the speech engine at once. -/
theorem double_play_overlaps :
    (steps revMain initMachine
        [.clickPlay [(0, 100)], .microStep 0,
         .clickPlay [(0, 100)], .microStep 1]).engine = [(0, 0), (1, 0)] ∧
      (steps revMain initMachine
        [.clickPlay [(0, 100)], .microStep 0,
         .clickPlay [(0, 100)], .microStep 1]).runs =
        [RunPhase.speaking (0, 100) [], RunPhase.speaking (0, 100) []] :=
  ⟨rfl, rfl⟩

/-- C6 (amended): the revisions disagree on re-entrant `play()`.  In
`src/src/index.tsx` and `part_001` a Play click always starts one more run
(no guard, no stop-then-restart), so overlapping playback is reachable; in
`part_002` the Play button is disabled while `isPlaying`, so a Play click
while playing leaves the state unchanged, and from the idle state it starts
exactly one new run. -/
theorem no_overlap_policy_by_revision :
    (∀ (s : Machine) (jobs : List (Nat × Nat)),
      (step revMain s (.clickPlay jobs)).runs = s.runs ++ [.starting jobs] ∧
        (step revPartOne s (.clickPlay jobs)).runs = s.runs ++ [.starting jobs]) ∧
    (steps revMain initMachine
        [.clickPlay [(0, 100)], .microStep 0,
         .clickPlay [(0, 100)], .microStep 1]).runs =
      [RunPhase.speaking (0, 100) [], RunPhase.speaking (0, 100) []] ∧
    (∀ (s : Machine) (jobs : List (Nat × Nat)), s.isPlaying = true →
      step revPartTwo s (.clickPlay jobs) = s) ∧
    (∀ (s : Machine) (jobs : List (Nat × Nat)), s.isPlaying = false →
      (step revPartTwo s (.clickPlay jobs)).runs = s.runs ++ [.starting jobs]) := by
  refine ⟨fun s jobs => ⟨rfl, rfl⟩, rfl, ?_, ?_⟩
  · intro s jobs hp
    simp [step, revPartTwo, hp]
  · intro s jobs hp
    simp [step, revPartTwo, hp]

/-- Witness for `no_overlap_policy_by_revision`: with the `part_002` guard,
a second Play click during a concrete active run is ignored. -/
theorem no_overlap_policy_by_revision_witness :
    step revPartTwo (steps revPartTwo initMachine [.clickPlay [(0, 100)]])
        (.clickPlay [(1, 50)]) =
      steps revPartTwo initMachine [.clickPlay [(0, 100)]] :=
  no_overlap_policy_by_revision.2.2.1 _ [(1, 50)] (by decide)

/-! ### Codec round-trip lemmas -/

/-- `expects` consumes exactly the literal it was given. -/
theorem expects_append (lit rest : List Char) :
    expects lit (lit ++ rest) = some rest := by
  induction lit with
  | nil => rfl
  | cons c cs ih => simpa [expects] using ih

/-- Parsing an escaped string body recovers the original characters and
stops at the closing quote. -/
theorem parseStrBody_escStr (s rest : List Char) :
    parseStrBody (escStr s ++ '"' :: rest) = some (s, rest) := by
  induction s with
  | nil =>
      simp only [escStr, List.flatMap_nil, List.nil_append]
      rw [parseStrBody.eq_def]
      simp
  | cons c cs ih =>
      rw [show escStr (c :: cs) = escChar c ++ escStr cs from by simp [escStr]]
      by_cases hc : c = '"' ∨ c = '\\'
      · rw [escChar, if_pos hc]
        simp only [List.cons_append, List.append_assoc, List.nil_append]
        rw [parseStrBody.eq_def]
        simp [ih]
      · push_neg at hc
        rw [escChar, if_neg (by tauto : ¬ (c = '"' ∨ c = '\\'))]
        simp only [List.singleton_append, List.cons_append, List.append_assoc,
          List.nil_append]
        rw [parseStrBody.eq_def]
        simp only [hc.2, hc.1, if_false, ite_false]
        rw [ih]
        rfl

/-- Parsing a serialized string recovers the original characters. -/
theorem parseStr_print (s rest : List Char) :
    parseStr (printStr s ++ rest) = some (s, rest) := by
  simp [printStr, parseStr, List.append_assoc, parseStrBody_escStr]

/-- Decimal digit characters are digits. -/
theorem digitChar_isDigit (d : Nat) (h : d < 10) : (digitChar d).isDigit = true := by
  unfold digitChar
  interval_cases d <;> decide

/-- The code of a decimal digit character. -/
theorem digitChar_toNat (d : Nat) (h : d < 10) : (digitChar d).toNat = 48 + d := by
  unfold digitChar
  interval_cases d <;> decide

/-- Every character of a serialized number is a digit. -/
theorem printNat_digits (n : Nat) : ∀ c ∈ printNat n, c.isDigit = true := by
  intro c hc
  unfold printNat at hc
  split_ifs at hc with h
  · simp only [List.mem_singleton] at hc
    subst hc
    decide
  · simp only [List.mem_map, List.mem_reverse] at hc
    obtain ⟨d, hd, rfl⟩ := hc
    exact digitChar_isDigit d (Nat.digits_lt_base (by norm_num) hd)

/-- A serialized number is never empty. -/
theorem printNat_ne_nil (n : Nat) : printNat n ≠ [] := by
  unfold printNat
  split_ifs with h
  · simp
  · simp [Nat.digits_ne_nil_iff_ne_zero.mpr h]

/-- `takeWhile` runs through a prefix that satisfies the predicate. -/
theorem takeWhile_append_all {α : Type} (p : α → Bool) (l r : List α)
    (hl : ∀ c ∈ l, p c = true) :
    (l ++ r).takeWhile p = l ++ r.takeWhile p := by
  induction l with
  | nil => simp
  | cons c cs ih =>
      simp only [List.cons_append, List.takeWhile_cons, hl c (by simp)]
      simp [ih fun x hx => hl x (by simp [hx])]

/-- `dropWhile` skips a prefix that satisfies the predicate. -/
theorem dropWhile_append_all {α : Type} (p : α → Bool) (l r : List α)
    (hl : ∀ c ∈ l, p c = true) :
    (l ++ r).dropWhile p = r.dropWhile p := by
  induction l with
  | nil => simp
  | cons c cs ih =>
      simp only [List.cons_append, List.dropWhile_cons, hl c (by simp)]
      simp [ih fun x hx => hl x (by simp [hx])]

/-- Reading back the decimal digits recovers the number. -/
theorem foldl_printNat (n : Nat) :
    (printNat n).foldl (fun a c => a * 10 + (c.toNat - 48)) 0 = n := by
  unfold printNat
  split_ifs with h
  · subst h; rfl
  · rw [List.foldl_map]
    rw [List.foldl_ext _ (fun (a : Nat) (d : Nat) => a * 10 + d) 0
      (fun a d hd => by
        rw [digitChar_toNat d (Nat.digits_lt_base (by norm_num)
          (List.mem_reverse.mp hd))]
        show a * 10 + (48 + d - 48) = a * 10 + d
        omega)]
    rw [List.foldl_reverse]
    have : ∀ L : List Nat, L.foldr (fun x y => y * 10 + x) 0 = Nat.ofDigits 10 L := by
      intro L
      induction L with
      | nil => simp [Nat.ofDigits]
      | cons d L ih => rw [List.foldr_cons, ih, Nat.ofDigits_cons]; ring
    rw [this, Nat.ofDigits_digits]

/-- Parsing a serialized number recovers it and stops at the closing
brace. -/
theorem parseNat_print (n : Nat) (rest : List Char) :
    parseNat (printNat n ++ rbrace :: rest) = some (n, rbrace :: rest) := by
  have ht : (printNat n ++ rbrace :: rest).takeWhile Char.isDigit = printNat n := by
    rw [takeWhile_append_all Char.isDigit (printNat n) (rbrace :: rest) (printNat_digits n)]
    simp [List.takeWhile_cons, rbrace]
  have hd : (printNat n ++ rbrace :: rest).dropWhile Char.isDigit = rbrace :: rest := by
    rw [dropWhile_append_all Char.isDigit (printNat n) (rbrace :: rest) (printNat_digits n)]
    simp [List.dropWhile_cons, rbrace]
  simp [parseNat, ht, hd, printNat_ne_nil n, foldl_printNat n]

/-- Rebuilding a string from its characters gives the string back. -/
theorem asString_data (s : String) : s.data.asString = s := rfl

/-- Parsing a serialized verse recovers it. -/
theorem parseVerse_print (v : Verse) (rest : List Char) :
    parseVerse (printVerse v ++ rest) = some (v, rest) := by
  simp only [printVerse, List.append_assoc, List.singleton_append]
  simp only [parseVerse, Option.bind_eq_bind]
  rw [expects_append, Option.some_bind]
  rw [parseStr_print, Option.some_bind]
  rw [expects_append, Option.some_bind]
  rw [parseNat_print, Option.some_bind]
  rw [show expects [rbrace] (rbrace :: rest) = some rest from by
    simp [expects]]
  simp [asString_data]

/-- Parsing the serialized tail of a verse list recovers it. -/
theorem parseVersesTail_print (vs : List Verse) (fuel : Nat) (rest : List Char)
    (h : vs.length < fuel) :
    parseVersesTail fuel (printVersesSep vs ++ ']' :: rest) = some (vs, rest) := by
  induction vs generalizing fuel rest with
  | nil =>
      cases fuel with
      | zero => simp at h
      | succ f =>
          simp only [printVersesSep, List.flatMap_nil, List.nil_append]
          rw [parseVersesTail.eq_def]
          simp
  | cons v vs ih =>
      cases fuel with
      | zero => simp at h
      | succ f =>
          rw [show printVersesSep (v :: vs) = ',' :: (printVerse v ++ printVersesSep vs)
            from by simp [printVersesSep]]
          simp only [List.cons_append, List.append_assoc]
          rw [parseVersesTail.eq_def]
          simp only [Option.bind_eq_bind]
          rw [if_neg (by decide)]
          simp only [ite_true]
          rw [parseVerse_print, Option.some_bind]
          rw [ih f rest (by simpa using h), Option.some_bind]
          rfl

/-- Parsing a serialized verse list recovers it. -/
theorem parseVerses_print (vs : List Verse) (fuel : Nat) (rest : List Char)
    (h : vs.length < fuel) :
    parseVerses fuel (printVerses vs ++ ']' :: rest) = some (vs, rest) := by
  cases vs with
  | nil =>
      simp only [printVerses, List.nil_append]
      rw [parseVerses.eq_def]
      simp
  | cons v vs =>
      have heq : printVerses (v :: vs) ++ ']' :: rest =
          lbrace :: (litTextKey.tail ++ (printStr v.text.data ++ (litPauseKey ++
            (printNat v.pause ++ ([rbrace] ++ (printVersesSep vs ++ ']' :: rest)))))) := by
        simp [printVerses, printVerse, litTextKey, List.append_assoc]
      rw [heq, parseVerses.eq_def]
      simp only [Option.bind_eq_bind]
      rw [if_neg (by simp [lbrace])]
      rw [← heq]
      have hv : parseVerse (printVerses (v :: vs) ++ ']' :: rest) =
          some (v, printVersesSep vs ++ ']' :: rest) := by
        rw [show printVerses (v :: vs) ++ ']' :: rest =
            printVerse v ++ (printVersesSep vs ++ ']' :: rest) from by
          simp [printVerses, List.append_assoc]]
        exact parseVerse_print v _
      rw [hv, Option.some_bind]
      rw [parseVersesTail_print vs fuel rest (by simp at h; omega), Option.some_bind]
      rfl

/-- A serialized verse list is at least as long as the list itself. -/
theorem printVersesSep_length_ge (vs : List Verse) :
    vs.length ≤ (printVersesSep vs).length := by
  induction vs with
  | nil => simp [printVersesSep]
  | cons v vs ih =>
      rw [show printVersesSep (v :: vs) = ',' :: (printVerse v ++ printVersesSep vs)
        from by simp [printVersesSep]]
      simp only [List.length_cons, List.length_append]
      omega

/-- A serialized verse list body is at least as long as the list itself. -/
theorem printVerses_length_ge (vs : List Verse) :
    vs.length ≤ (printVerses vs).length := by
  cases vs with
  | nil => simp [printVerses]
  | cons v vs =>
      have h1 := printVersesSep_length_ge vs
      have h2 : 1 ≤ (printVerse v).length := by
        simp [printVerse, litTextKey]
      simp only [printVerses, List.length_append, List.length_cons]
      omega

/-! ### C3 -/

/-- C3: decoding the token produced by encoding any document yields that
document back — the title, the number of verses, their order, and each
verse's text and pause are all preserved. -/
theorem decode_encode_roundtrip (d : Doc) : decode (encode d) = some d := by
  show parseDoc (printDoc d) = some d
  simp only [printDoc, List.append_assoc, List.singleton_append]
  simp only [parseDoc, Option.bind_eq_bind]
  rw [expects_append, Option.some_bind]
  rw [parseStr_print, Option.some_bind]
  rw [expects_append, Option.some_bind]
  have hfuel : d.verses.length < (printVerses d.verses ++ ']' :: rbrace :: []).length + 1 := by
    have := printVerses_length_ge d.verses
    simp only [List.length_append, List.length_cons]
    omega
  rw [show (']' : Char) :: rbrace :: [] = ']' :: [rbrace] from rfl]
  rw [parseVerses_print d.verses _ [rbrace] hfuel, Option.some_bind]
  rw [show expects [rbrace] [rbrace] = some [] from by simp [expects]]
  simp [asString_data]
